import Mathlib

/-!
Verification of the davstack store layer (`src/packages/store/src/createStore.tsx`)
against its specification.

The embedding models JavaScript state trees as the inductive type `Val`
(primitives, arrays, objects-as-association-lists), and translates the
functions of `createStore.tsx` — `isObject`, the root `set` / `assign`
methods, `applyExtensions`, `extend`, `LocalProvider`'s merged initial
state and `useLocalStore` — into pure Lean functions.  Parts of the
package that are referenced but whose source file is not in the tree
(`generateInnerSelectors`, the immer middleware, the `computed` builder)
are modelled from the specification's words; their doc comments say so.
-/

namespace Davstack

/-- A JavaScript value as stored in a davstack state tree: a primitive,
an array, or a plain object represented as an ordered association list
from property names to values (JS objects preserve insertion order). -/
inductive Val where
  | prim : Int → Val
  | arr : List Val → Val
  | obj : List (String × Val) → Val

instance : Inhabited Val := ⟨.prim 0⟩

/-- Source `createStore.tsx` lines 190–192:
`value instanceof Object && !(value instanceof Array)`.
Primitives are not `instanceof Object`; arrays are excluded explicitly. -/
def isObject : Val → Bool
  | .obj _ => true
  | _ => false

/-- The association list of an object value; empty for non-objects
(spreading a primitive into an object literal contributes no keys). -/
def kvsOf : Val → List (String × Val)
  | .obj kvs => kvs
  | _ => []

/-- First-match lookup in an association list, the way JS property
access resolves a key (keys are unique in a real JS object). -/
def lookupKV {α : Type} (k : String) : List (String × α) → Option α
  | [] => none
  | (k', v) :: rest => if k' == k then some v else lookupKV k rest

/-- Key membership as a boolean. -/
def memKey {α : Type} (k : String) : List (String × α) → Bool
  | [] => false
  | (k', _) :: rest => k' == k || memKey k rest

/-- The value reached by following a path of property names from a
value; `none` when the path leaves the tree (missing key, or a step
into a non-object). -/
def valueAt : List String → Val → Option Val
  | [], v => some v
  | k :: p, .obj kvs => (lookupKV k kvs).bind (valueAt p)
  | _ :: _, .prim _ => none
  | _ :: _, .arr _ => none

/-- Distinctness of the keys of an association list, as a boolean. -/
def nodupKeys {α : Type} : List (String × α) → Bool
  | [] => true
  | (k, _) :: rest => !memKey k rest && nodupKeys rest

mutual
/-- Well-formedness of a state tree as a JS runtime would produce it:
every object in the tree has pairwise-distinct keys. -/
def wfVal : Val → Bool
  | .prim _ => true
  | .arr _ => true
  | .obj kvs => nodupKeys kvs && wfKVs kvs
/-- Well-formedness of each value in an association list. -/
def wfKVs : List (String × Val) → Bool
  | [] => true
  | (_, v) :: rest => wfVal v && wfKVs rest
end

theorem lookupKV_eq_none {α : Type} (k : String) (l : List (String × α)) :
    lookupKV k l = none ↔ memKey k l = false := by
  induction l with
  | nil => simp [lookupKV, memKey]
  | cons hd tl ih =>
    obtain ⟨k', v⟩ := hd
    by_cases h : k' == k <;> simp [lookupKV, memKey, h, ih]

theorem lookupKV_mem {α : Type} {k : String} {v : α} {l : List (String × α)}
    (h : lookupKV k l = some v) : (k, v) ∈ l := by
  induction l with
  | nil => simp [lookupKV] at h
  | cons hd tl ih =>
    obtain ⟨k', v'⟩ := hd
    by_cases hk : k' == k
    · simp [lookupKV, hk] at h
      simp_all
    · simp [lookupKV, hk] at h
      exact List.mem_cons_of_mem _ (ih h)

theorem mem_memKey {α : Type} {k : String} {v : α} {l : List (String × α)}
    (h : (k, v) ∈ l) : memKey k l = true := by
  induction l with
  | nil => simp at h
  | cons hd tl ih =>
    rcases List.mem_cons.1 h with h' | h'
    · simp [memKey, ← h']
    · simp [memKey, ih h']

theorem nodupKeys_lookup {α : Type} {k : String} {v : α} {l : List (String × α)}
    (hnd : nodupKeys l = true) (h : (k, v) ∈ l) : lookupKV k l = some v := by
  induction l with
  | nil => simp at h
  | cons hd tl ih =>
    obtain ⟨k', v'⟩ := hd
    simp only [nodupKeys, Bool.and_eq_true, Bool.not_eq_true'] at hnd
    rcases List.mem_cons.1 h with h' | h'
    · cases h'
      simp [lookupKV]
    · have hne : (k' == k) = false := by
        by_cases hk : k' == k
        · exfalso
          have hkk : k' = k := by simpa using hk
          subst hkk
          exact absurd (mem_memKey h') (by simp [hnd.1])
        · simpa using hk
      simp [lookupKV, hne, ih hnd.2 h']

theorem wfKVs_mem {k : String} {v : Val} {kvs : List (String × Val)}
    (hwf : wfKVs kvs = true) (h : (k, v) ∈ kvs) : wfVal v = true := by
  induction kvs with
  | nil => simp at h
  | cons hd tl ih =>
    obtain ⟨k', v'⟩ := hd
    simp only [wfKVs, Bool.and_eq_true] at hwf
    rcases List.mem_cons.1 h with h' | h'
    · cases h'; exact hwf.1
    · exact ih hwf.2 h'

/-! ## Accessor nodes and inner-selector generation -/

/-- The method surface of one accessor node: which of `get`, `set`,
`use`, `assign` it exposes. -/
structure AccessorNode where
  hasGet : Bool
  hasSet : Bool
  hasUse : Bool
  hasAssign : Bool
deriving DecidableEq, Repr

/-- The read/write accessor generated for the value at a nested path:
`get`, `set` and `use` always; `assign` on object paths only
(spec: "`assign(partial)` (object paths only)"). -/
def accessorFor (v : Val) : AccessorNode :=
  ⟨true, true, true, isObject v⟩

/-- The read-only accessor of a computed property: only `get` and `use`
(spec: "read-only variant (computed) exposes only `get()`/`use()`";
test `should be read only` in `store-computed.test.tsx`). -/
def computedAccessor : AccessorNode :=
  ⟨true, false, true, false⟩

/-- The root of the store itself: `globalMethods` of
`createStore.tsx` lines 105–110 installs `set`, `get`, `use` and
`assign` unconditionally, whatever the state's type. -/
def rootAccessor : AccessorNode :=
  ⟨true, true, true, true⟩

mutual
/-- Modelled from the spec: `generateInnerSelectors` (its file
`utils/generate-inner-selectors` is not part of this source tree) —
"the recursive traversal of a state shape that produces, for every
nested path, a bound accessor object exposing `get`/`set`/`use`/`assign`",
with the accessor-node contract "`assign(partial)` (object paths only)".
Returns the accessor node generated for every nonempty path of the
shape, paired with its path. -/
def generateInnerSelectors : Val → List (List String × AccessorNode)
  | .prim _ => []
  | .arr _ => []
  | .obj kvs => genKVs kvs
/-- The accessors generated for the entries of one object: for each
entry, an accessor at path `[k]` plus the recursively generated
accessors of the entry's value, re-rooted under `k`. -/
def genKVs : List (String × Val) → List (List String × AccessorNode)
  | [] => []
  | (k, v) :: rest =>
      ([k], accessorFor v)
        :: ((generateInnerSelectors v).map (fun pn => (k :: pn.1, pn.2))
            ++ genKVs rest)
end

/-- The full accessor surface of a store created on state `v`: the root
methods plus the generated inner selectors (`createInnerStore`,
`createStore.tsx` lines 105–123). -/
def storeAccessors (v : Val) : List (List String × AccessorNode) :=
  ([], rootAccessor) :: generateInnerSelectors v

theorem mem_genKVs {kvs : List (String × Val)} {p : List String}
    {node : AccessorNode} :
    (p, node) ∈ genKVs kvs ↔
      ∃ k v, (k, v) ∈ kvs ∧
        ((p = [k] ∧ node = accessorFor v) ∨
         (∃ p', p = k :: p' ∧ (p', node) ∈ generateInnerSelectors v)) := by
  induction kvs with
  | nil => simp [genKVs]
  | cons hd tl ih =>
    obtain ⟨k₀, v₀⟩ := hd
    constructor
    · intro h
      rcases List.mem_cons.1 h with h' | h'
      · obtain ⟨hp, hn⟩ := Prod.mk.injEq .. ▸ h'
        exact ⟨k₀, v₀, List.mem_cons_self .., Or.inl ⟨hp, hn⟩⟩
      · rcases List.mem_append.1 h' with h'' | h''
        · obtain ⟨⟨p', n'⟩, hmem, heq⟩ := List.mem_map.1 h''
          obtain ⟨hp, hn⟩ := Prod.mk.injEq .. ▸ heq.symm
          exact ⟨k₀, v₀, List.mem_cons_self ..,
            Or.inr ⟨p', hp, hn ▸ hmem⟩⟩
        · obtain ⟨k, v, hkv, hcase⟩ := ih.1 h''
          exact ⟨k, v, List.mem_cons_of_mem _ hkv, hcase⟩
    · rintro ⟨k, v, hkv, hcase⟩
      rcases List.mem_cons.1 hkv with hkv' | hkv'
      · obtain ⟨hk, hv⟩ := Prod.mk.injEq .. ▸ hkv'
        subst hk; subst hv
        rcases hcase with ⟨hp, hn⟩ | ⟨p', hp, hmem⟩
        · subst hp; subst hn
          exact List.mem_cons_self ..
        · subst hp
          exact List.mem_cons_of_mem _
            (List.mem_append_left _ (List.mem_map.2 ⟨(p', node), hmem, rfl⟩))
      · rcases hcase with ⟨hp, hn⟩ | ⟨p', hp, hmem⟩
        · exact List.mem_cons_of_mem _
            (List.mem_append_right _ (ih.2 ⟨k, v, hkv', Or.inl ⟨hp, hn⟩⟩))
        · exact List.mem_cons_of_mem _
            (List.mem_append_right _ (ih.2 ⟨k, v, hkv', Or.inr ⟨p', hp, hmem⟩⟩))

/-- Every generated inner selector sits at a nonempty path. -/
theorem genSelectors_ne_nil {v : Val} {p : List String} {node : AccessorNode}
    (h : (p, node) ∈ generateInnerSelectors v) : p ≠ [] := by
  cases v with
  | prim n => simp [generateInnerSelectors] at h
  | arr vs => simp [generateInnerSelectors] at h
  | obj kvs =>
    rw [generateInnerSelectors] at h
    obtain ⟨k, v', _, hcase⟩ := mem_genKVs.1 h
    rcases hcase with ⟨hp, _⟩ | ⟨p', hp, _⟩ <;> simp [hp]

/-- Soundness of the generated selectors: an accessor generated at path
`p` of a well-formed shape is the accessor of the value reached at `p`. -/
theorem genSelectors_sound {p : List String} :
    ∀ {v : Val} {node : AccessorNode}, wfVal v = true →
      (p, node) ∈ generateInnerSelectors v →
      ∃ w, valueAt p v = some w ∧ node = accessorFor w := by
  induction p with
  | nil =>
    intro v node _ h
    exact absurd rfl (genSelectors_ne_nil h)
  | cons k p' ih =>
    intro v node hwf h
    cases v with
    | prim n => simp [generateInnerSelectors] at h
    | arr vs => simp [generateInnerSelectors] at h
    | obj kvs =>
      rw [generateInnerSelectors] at h
      rw [wfVal, Bool.and_eq_true] at hwf
      obtain ⟨k₀, v₀, hkv, hcase⟩ := mem_genKVs.1 h
      rcases hcase with ⟨hp, hn⟩ | ⟨p'', hp, hmem⟩
      · obtain ⟨hk, hp'⟩ := List.cons.injEq .. ▸ hp
        subst hk; subst hp'
        refine ⟨v₀, ?_, hn⟩
        rw [valueAt, nodupKeys_lookup hwf.1 hkv]
        rfl
      · obtain ⟨hk, hp'⟩ := List.cons.injEq .. ▸ hp
        subst hk; subst hp'
        obtain ⟨w, hval, hnode⟩ := ih (wfKVs_mem hwf.2 hkv) hmem
        refine ⟨w, ?_, hnode⟩
        rw [valueAt, nodupKeys_lookup hwf.1 hkv]
        simpa using hval

/-- Completeness of the generated selectors: every reachable nonempty
path of the shape carries a generated accessor for its value. -/
theorem genSelectors_complete {p : List String} :
    ∀ {v w : Val}, valueAt p v = some w → p ≠ [] →
      (p, accessorFor w) ∈ generateInnerSelectors v := by
  induction p with
  | nil => intro v w _ hne; exact absurd rfl hne
  | cons k p' ih =>
    intro v w hval _
    cases v with
    | prim n => simp [valueAt] at hval
    | arr vs => simp [valueAt] at hval
    | obj kvs =>
      rw [valueAt] at hval
      cases hlk : lookupKV k kvs with
      | none => rw [hlk] at hval; simp at hval
      | some v₀ =>
        rw [hlk] at hval
        simp only [Option.some_bind] at hval
        rw [generateInnerSelectors]
        by_cases hp' : p' = []
        · subst hp'
          simp only [valueAt, Option.some.injEq] at hval
          subst hval
          exact mem_genKVs.2 ⟨k, v₀, lookupKV_mem hlk, Or.inl ⟨rfl, rfl⟩⟩
        · exact mem_genKVs.2 ⟨k, v₀, lookupKV_mem hlk,
            Or.inr ⟨p', rfl, ih hval hp'⟩⟩

/-- Every path generated for the entries of `kvs` starts with a key of
`kvs`. -/
theorem genKVs_head {kvs : List (String × Val)} {p : List String}
    {node : AccessorNode} (h : (p, node) ∈ genKVs kvs) :
    ∃ k p', p = k :: p' ∧ memKey k kvs = true := by
  obtain ⟨k, v, hkv, hcase⟩ := mem_genKVs.1 h
  rcases hcase with ⟨hp, _⟩ | ⟨p', hp, _⟩
  · exact ⟨k, [], hp, mem_memKey hkv⟩
  · exact ⟨k, p', hp, mem_memKey hkv⟩

mutual
/-- The paths of the generated inner selectors of a well-formed shape
are pairwise distinct: no path carries two accessor nodes. -/
theorem genSelectors_nodup : ∀ (v : Val), wfVal v = true →
    ((generateInnerSelectors v).map Prod.fst).Nodup
  | .prim _, _ => by simp [generateInnerSelectors]
  | .arr _, _ => by simp [generateInnerSelectors]
  | .obj kvs, h => by
      rw [generateInnerSelectors]
      rw [wfVal, Bool.and_eq_true] at h
      exact genKVs_nodup kvs h.1 h.2
/-- Distinctness of the generated paths for the entries of one object
with distinct, well-formed entries. -/
theorem genKVs_nodup : ∀ (kvs : List (String × Val)),
    nodupKeys kvs = true → wfKVs kvs = true →
    ((genKVs kvs).map Prod.fst).Nodup
  | [], _, _ => by simp [genKVs]
  | (k, v) :: rest, hnd, hwf => by
      rw [nodupKeys, Bool.and_eq_true, Bool.not_eq_true'] at hnd
      rw [wfKVs, Bool.and_eq_true] at hwf
      rw [genKVs]
      simp only [List.map_cons, List.map_append, List.map_map,
        List.nodup_cons, List.nodup_append, List.mem_append]
      refine ⟨?_, ⟨?_, genKVs_nodup rest hnd.2 hwf.2, ?_⟩⟩
      · rintro (hmem | hmem)
        · obtain ⟨⟨p', n'⟩, hmem', heq⟩ := List.mem_map.1 hmem
          simp only [Function.comp] at heq
          have hp' : p' = [] := by
            have := List.cons.injEq .. ▸ heq
            exact this.2
          exact genSelectors_ne_nil hmem' hp'
        · obtain ⟨⟨p', n'⟩, hmem', heq⟩ := List.mem_map.1 hmem
          obtain ⟨k', p'', hp, hkey⟩ := genKVs_head hmem'
          rw [hp] at heq
          have hk : k' = k := by
            have := List.cons.injEq .. ▸ heq
            exact this.1
          rw [hk, hnd.1] at hkey
          exact Bool.false_ne_true hkey
      · have : ((generateInnerSelectors v).map
            (Prod.fst ∘ fun pn => (k :: pn.1, pn.2)))
            = ((generateInnerSelectors v).map Prod.fst).map (k :: ·) := by
          rw [List.map_map]
          rfl
        rw [this]
        exact (genSelectors_nodup v hwf.1).map
          (fun a b hab => (List.cons.injEq .. ▸ hab).2)
      · intro x hx hmem
        obtain ⟨⟨p', n'⟩, hmem', heq⟩ := List.mem_map.1 hx
        obtain ⟨⟨q', m'⟩, hq, heq'⟩ := List.mem_map.1 hmem
        obtain ⟨k', p'', hp, hkey⟩ := genKVs_head hq
        simp only [Function.comp] at heq
        rw [← heq'] at heq
        rw [hp] at heq
        have hk : k = k' := (List.cons.injEq .. ▸ heq.symm).1.symm
        rw [← hk, hnd.1] at hkey
        exact Bool.false_ne_true hkey
end

/-- In a list of keyed entries with pairwise-distinct keys, filtering
for one present key returns exactly its entry. -/
theorem filter_key_eq_singleton {α β : Type} [DecidableEq α] {p : α} {n : β} :
    ∀ {l : List (α × β)}, (l.map Prod.fst).Nodup → (p, n) ∈ l →
      l.filter (fun pn => decide (pn.1 = p)) = [(p, n)] := by
  intro l
  induction l with
  | nil => intro _ hmem; simp at hmem
  | cons hd tl ih =>
    obtain ⟨q, m⟩ := hd
    intro hnd hmem
    rw [List.map_cons, List.nodup_cons] at hnd
    by_cases hq : q = p
    · subst hq
      have htl : tl.filter (fun pn => decide (pn.1 = q)) = [] := by
        rw [List.filter_eq_nil_iff]
        rintro ⟨q', m'⟩ hmem' hpred
        simp only [decide_eq_true_eq] at hpred
        exact hnd.1 (hpred ▸ List.mem_map.2 ⟨(q', m'), hmem', rfl⟩)
      have hn : m = n := by
        rcases List.mem_cons.1 hmem with h' | h'
        · exact ((Prod.mk.injEq .. ▸ h').2).symm
        · exact absurd (List.mem_map.2 ⟨(q, n), h', rfl⟩) hnd.1
      subst hn
      simp [List.filter_cons, htl]
    · have hmem' : (p, n) ∈ tl := by
        rcases List.mem_cons.1 hmem with h' | h'
        · exact absurd ((Prod.mk.injEq .. ▸ h').1.symm) hq
        · exact h'
      simp only [List.filter_cons, decide_eq_true_eq]
      rw [if_neg hq]
      exact ih hnd.2 hmem'

/-- A store on well-formed state `v` exposes exactly one accessor node
at each reachable path: the root methods at `[]`, and the generated
accessor of the reached value elsewhere. -/
theorem storeAccessors_unique {v : Val} {p : List String} {w : Val}
    (hwf : wfVal v = true) (hval : valueAt p v = some w) :
    (storeAccessors v).filter (fun pn => decide (pn.1 = p)) =
      [(p, if p.isEmpty then rootAccessor else accessorFor w)] := by
  by_cases hp : p = []
  · subst hp
    rw [storeAccessors, List.filter_cons]
    simp only [decide_eq_true_eq, if_pos rfl]
    have : (generateInnerSelectors v).filter
        (fun pn => decide (pn.1 = ([] : List String))) = [] := by
      rw [List.filter_eq_nil_iff]
      rintro ⟨p', n'⟩ hmem hpred
      simp only [decide_eq_true_eq] at hpred
      exact genSelectors_ne_nil hmem hpred
    simp [this, List.isEmpty]
  · rw [storeAccessors, List.filter_cons]
    simp only [decide_eq_true_eq]
    rw [if_neg (fun h => hp h.symm)]
    have hEmpty : p.isEmpty = false := by
      cases p with
      | nil => exact absurd rfl hp
      | cons a as => rfl
    rw [hEmpty]
    simp only [Bool.false_eq_true, if_false]
    exact filter_key_eq_singleton (genSelectors_nodup v hwf)
      (genSelectors_complete hval hp)

/-! ## Object spread and `Object.assign` semantics -/

/-- The association list produced by `{...a, ...b}`, and by
`Object.assign(a, b)` on a draft of `a`: the keys of `a` in their
order, values overridden by `b` where `b` also has the key, followed by
the keys of `b` absent from `a`, in their order. -/
def mergeKVs {α : Type} (a b : List (String × α)) : List (String × α) :=
  a.map (fun kv => (kv.1, (lookupKV kv.1 b).getD kv.2))
    ++ b.filter (fun kv => !memKey kv.1 a)

theorem lookupKV_append {α : Type} (k : String) (x y : List (String × α)) :
    lookupKV k (x ++ y) =
      match lookupKV k x with
      | some v => some v
      | none => lookupKV k y := by
  induction x with
  | nil => simp [lookupKV]
  | cons hd tl ih =>
    obtain ⟨k', v'⟩ := hd
    by_cases h : k' == k <;> simp [lookupKV, h, ih]

theorem lookupKV_override_map {α : Type} (k : String)
    (a b : List (String × α)) :
    lookupKV k (a.map (fun kv => (kv.1, (lookupKV kv.1 b).getD kv.2)))
      = (lookupKV k a).map (fun v => (lookupKV k b).getD v) := by
  induction a with
  | nil => simp [lookupKV]
  | cons hd tl ih =>
    obtain ⟨k', v'⟩ := hd
    by_cases h : k' == k
    · have hk : k' = k := by simpa using h
      subst hk
      simp [lookupKV, h]
    · simp [lookupKV, h, ih]

theorem lookupKV_filter_kept {α : Type} (k : String)
    (pr : String × α → Bool) (hk : ∀ v : α, pr (k, v) = true) :
    ∀ (b : List (String × α)), lookupKV k (b.filter pr) = lookupKV k b := by
  intro b
  induction b with
  | nil => simp
  | cons hd tl ih =>
    obtain ⟨k', v'⟩ := hd
    by_cases h : k' == k
    · have hkk : k' = k := by simpa using h
      subst hkk
      rw [List.filter_cons, hk v']
      simp [lookupKV, h]
    · rw [List.filter_cons]
      cases hpr : pr (k', v')
      · simpa [lookupKV, h] using ih
      · simpa [lookupKV, h] using ih

theorem lookupKV_filter_dropped {α : Type} (k : String)
    (pr : String × α → Bool) (hk : ∀ v : α, pr (k, v) = false) :
    ∀ (b : List (String × α)), lookupKV k (b.filter pr) = none := by
  intro b
  induction b with
  | nil => simp [lookupKV]
  | cons hd tl ih =>
    obtain ⟨k', v'⟩ := hd
    rw [List.filter_cons]
    by_cases h : k' == k
    · have hkk : k' = k := by simpa using h
      subst hkk
      rw [hk v']
      simpa using ih
    · cases hpr : pr (k', v')
      · simpa using ih
      · simpa [lookupKV, h] using ih

/-- A key of the overriding record keeps the record's value in the
merged object. -/
theorem lookupKV_mergeKVs_right {α : Type} {k : String} {w : α}
    {a b : List (String × α)} (h : lookupKV k b = some w) :
    lookupKV k (mergeKVs a b) = some w := by
  rw [mergeKVs, lookupKV_append, lookupKV_override_map]
  cases hla : lookupKV k a with
  | some v => simp [h]
  | none =>
    simp only [Option.map]
    have hmem : memKey k a = false := (lookupKV_eq_none k a).1 hla
    rw [lookupKV_filter_kept k (fun kv => !memKey kv.1 a)
      (fun v => by simp [hmem]) b]
    exact h

/-- A key absent from the overriding record keeps the base object's
value in the merged object. -/
theorem lookupKV_mergeKVs_left {α : Type} {k : String}
    {a b : List (String × α)} (h : lookupKV k b = none) :
    lookupKV k (mergeKVs a b) = lookupKV k a := by
  rw [mergeKVs, lookupKV_append, lookupKV_override_map]
  cases hla : lookupKV k a with
  | some v => simp [h]
  | none =>
    simp only [Option.map]
    by_cases hmem : memKey k a = true
    · rw [lookupKV_filter_dropped k (fun kv => !memKey kv.1 a)
        (fun v => by simp [hmem]) b]
    · have hmem' : memKey k a = false := by simpa using hmem
      rw [lookupKV_filter_kept k (fun kv => !memKey kv.1 a)
        (fun v => by simp [hmem']) b]
      exact h

/-- Merging the empty record is the identity: `{...a}` is `a`. -/
theorem mergeKVs_nil {α : Type} (a : List (String × α)) :
    mergeKVs a [] = a := by
  rw [mergeKVs]
  induction a with
  | nil => simp
  | cons hd tl ih =>
    obtain ⟨k', v'⟩ := hd
    simp [lookupKV]

theorem memKey_append {α : Type} (k : String) (x y : List (String × α)) :
    memKey k (x ++ y) = (memKey k x || memKey k y) := by
  induction x with
  | nil => simp [memKey]
  | cons hd tl ih =>
    obtain ⟨k', v'⟩ := hd
    simp [memKey, ih, Bool.or_assoc]

theorem memKey_map_fst {α β : Type} (k : String) (a : List (String × α))
    (f : String × α → β) :
    memKey k (a.map (fun kv => (kv.1, f kv))) = memKey k a := by
  induction a with
  | nil => simp [memKey]
  | cons hd tl ih =>
    obtain ⟨k', v'⟩ := hd
    simp [memKey, ih]

theorem memKey_exists {α : Type} {k : String} {l : List (String × α)}
    (h : memKey k l = true) : ∃ v, (k, v) ∈ l := by
  induction l with
  | nil => simp [memKey] at h
  | cons hd tl ih =>
    obtain ⟨k', v'⟩ := hd
    simp only [memKey, Bool.or_eq_true] at h
    rcases h with h | h
    · have hk : k' = k := by simpa using h
      subst hk
      exact ⟨v', List.mem_cons_self ..⟩
    · obtain ⟨v, hv⟩ := ih h
      exact ⟨v, List.mem_cons_of_mem _ hv⟩

theorem memKey_filter_le {α : Type} (k : String) (pr : String × α → Bool)
    (b : List (String × α)) (h : memKey k (b.filter pr) = true) :
    memKey k b = true := by
  obtain ⟨v, hv⟩ := memKey_exists h
  exact mem_memKey (List.mem_of_mem_filter hv)

/-- The merged object's key set is the union of both key sets. -/
theorem memKey_mergeKVs {α : Type} (k : String) (a b : List (String × α)) :
    memKey k (mergeKVs a b) = (memKey k a || memKey k b) := by
  rw [mergeKVs, memKey_append, memKey_map_fst]
  cases hma : memKey k a
  · simp only [Bool.false_or]
    have hkept := lookupKV_filter_kept k
      (fun kv => !memKey kv.1 a) (fun v : α => by simp [hma]) b
    cases hlb : lookupKV k b with
    | some w =>
      have : lookupKV k (b.filter fun kv => !memKey kv.1 a) = some w := by
        rw [hkept]; exact hlb
      have h1 : memKey k (b.filter fun kv => !memKey kv.1 a) = true := by
        by_contra hc
        have : lookupKV k (b.filter fun kv => !memKey kv.1 a) = none :=
          (lookupKV_eq_none _ _).2 (by simpa using hc)
        simp_all
      have h2 : memKey k b = true := by
        by_contra hc
        have : lookupKV k b = none := (lookupKV_eq_none _ _).2 (by simpa using hc)
        simp_all
      rw [h1, h2]
    | none =>
      have h1 : memKey k b = false := (lookupKV_eq_none k b).1 hlb
      have h2 : memKey k (b.filter fun kv => !memKey kv.1 a) = false := by
        by_contra hc
        exact absurd (memKey_filter_le k _ b (by simpa using hc)) (by simp [h1])
      rw [h1, h2]
  · simp

/-! ## The store object, the extension registry and local providers -/

/-- An opaque member installed on the store object (a generated
accessor, a computed hook, an action, an effect).  The claims about the
extension mechanism concern which names are defined on the object, so
the payload is abstract. -/
abbrev Member := Nat

/-- The store object, a JS record of named members. -/
structure StoreObj where
  members : List (String × Member)

/-- The names defined on a store object. -/
def storeNames (s : StoreObj) : List String :=
  s.members.map Prod.fst

/-- A builder function as passed to `extend` (and to `computed` /
`actions` / `effects`, which delegate to it): from the store object it
receives it returns a record of new members (source line 177). -/
def Builder : Type := StoreObj → List (String × Member)

/-- Source lines 105–123 (`createInnerStore`): the returned object has
`storeName`, `immerStoreApi`, the root methods of `globalMethods`
(`set`, `get`, `use`, `assign`), and the spread of `innerMethods` —
`generateInnerSelectors` returns one accessor member per top-level
property of the state shape. -/
def createInnerStoreObj (v : Val) : StoreObj :=
  ⟨[("storeName", 0), ("immerStoreApi", 0), ("set", 0), ("get", 0),
      ("use", 0), ("assign", 0)]
    ++ (kvsOf v).map (fun kv => (kv.1, 0))⟩

/-- One step of the `applyExtensions` reduce:
`Object.assign(acc, ext(acc))` (source line 129). -/
def applyExtension (acc : StoreObj) (ext : Builder) : StoreObj :=
  ⟨mergeKVs acc.members (ext acc)⟩

/-- Source lines 126–131 (`applyExtensions`): fold the registered
extension functions over a store object, in registration order. -/
def applyExtensions (extensions : List Builder) (store : StoreObj) : StoreObj :=
  extensions.foldl applyExtension store

/-- Source lines 176–183 (`extend`): push the builder onto the
registry, apply the whole registry to the current api object and merge
the result back into it.  Takes and returns the pair of the api object
and the registry. -/
def extendStore (b : Builder) : StoreObj × List Builder → StoreObj × List Builder
  | (api, exts) => (applyExtensions (exts ++ [b]) api, exts ++ [b])

/-- Source lines 138–151 (`LocalProvider`): the local store's initial
state — when the global initial state is an object, the spread
`{...initialState, ...localInitialValue}`; otherwise the provided
`initialValue` itself. -/
def mergedInitialState (initialState : Val) (localInitialValue : Val) : Val :=
  if isObject initialState then
    .obj (mergeKVs (kvsOf initialState) (kvsOf localInitialValue))
  else localInitialValue

/-- The `initialValue` prop with its declared default
(`initialValue: localInitialValue = {}`, source line 140); `none`
stands for an omitted prop. -/
def effectiveInitialValue (given : Option Val) : Val :=
  given.getD (.obj [])

/-- Source lines 138–162: the store a `LocalProvider` places into its
context — a fresh inner store on the merged initial state, with every
registered extension replayed against it (`applyExtensions`,
source line 155). -/
def localProviderStore (exts : List Builder) (initialState : Val)
    (given : Option Val) : StoreObj :=
  applyExtensions exts
    (createInnerStoreObj
      (mergedInitialState initialState (effectiveInitialValue given)))

/-- Source lines 164–172 (`useLocalStore`): read the nearest enclosing
`LocalProvider`'s context value — the head of the stack of enclosing
providers, the context default being `null` — and return it, throwing
when no provider is present. -/
def useLocalStore (providers : List StoreObj) : Except String StoreObj :=
  match providers.head? with
  | some s => .ok s
  | none => .error "useLocalStore must be used within a LocalProvider"

/-! ## The immer middleware, root `set` and root `assign` -/

/-- An argument to `setState`: a whole new value, or a recipe to run on
the immer draft of the current state. -/
inductive SetStateArg where
  | value : Val → SetStateArg
  | updater : (Val → Val) → SetStateArg

/-- Modelled from the spec: the immer middleware's production step (its
file `middlewares/immer.middleware` is not part of this source tree) —
"mutated only through accessor-issued immutable updates": a plain value
replaces the state, a recipe is applied to a draft of the previous
state, and the next state is produced as a new value rather than by
mutating the previous one (purity of the embedding). -/
def produceNext : SetStateArg → Val → Val
  | .value v, _ => v
  | .updater f, s => f s

/-- The underlying immer store instance: its current state, plus the
log of the action names of the `setState` calls it has received.  The
log makes the routing observable: a store method goes through the
middleware's `setState` exactly when it appends one entry. -/
structure ImmerStoreApi where
  state : Val
  log : List String

/-- The middleware's `setState`: one production, one log entry. -/
def ImmerStoreApi.setState (api : ImmerStoreApi) (arg : SetStateArg)
    (actionName : String) : ImmerStoreApi :=
  ⟨produceNext arg api.state, api.log ++ [actionName]⟩

/-- `Object.assign(draft, state)` on the immer draft (source lines
96–98): merge the record's properties into an object draft. -/
def draftAssign (draft : Val) (given : Val) : Val :=
  match draft with
  | .obj kvs => .obj (mergeKVs kvs (kvsOf given))
  | other => other

/-- Source lines 87–89 (`setState` of `createInnerStore`): the root
`set` delegates to `immerStoreApi.setState`, the action name defaulting
to `@@<name>/setState`. -/
def rootSet (name : String) (api : ImmerStoreApi) (arg : SetStateArg)
    (actionName : Option String) : ImmerStoreApi :=
  api.setState arg (actionName.getD ("@@" ++ name ++ "/setState"))

/-- Source lines 91–103 (`assign` of `createInnerStore`): when the
initial state is an object, delegate an updater that `Object.assign`s
the given record into the draft; otherwise "just pass the value just
like .set".  The action name defaults to `@@<name>/assign`. -/
def rootAssign (name : String) (initialState : Val) (api : ImmerStoreApi)
    (given : Val) (actionName : Option String) : ImmerStoreApi :=
  api.setState
    (if isObject initialState then
      .updater (fun draft => draftAssign draft given)
     else .value given)
    (actionName.getD ("@@" ++ name ++ "/assign"))

/-! ## Nested accessor updates and computed properties -/

/-- Update the first entry of key `k` with `f` (an immer draft write
`draft[k] = ...` on an object with unique keys). -/
def updateKV (k : String) (f : Val → Val) : List (String × Val) → List (String × Val)
  | [] => []
  | (k', v) :: rest =>
      if k' == k then (k', f v) :: rest else (k', v) :: updateKV k f rest

/-- Modelled from the spec: the state update performed by a generated
inner accessor (its file `utils/generate-inner-selectors` is not part
of this source tree) — an immutable update of the value at the
accessor's path, every other path left unchanged. -/
def updateAt : List String → (Val → Val) → Val → Val
  | [], f, v => f v
  | k :: p, f, .obj kvs => .obj (updateKV k (updateAt p f) kvs)
  | _ :: _, _, v => v

/-- `store.<path>.set(value)`: replace the value at the accessor's
path (docs: `userStore.address.city.set('Newtown')`). -/
def setAt (p : List String) (newVal : Val) (s : Val) : Val :=
  updateAt p (fun _ => newVal) s

/-- Modelled from the spec: a computed property (the `computed` builder
binding, not part of this source tree) — "a derived, read-only accessor
whose value is recalculated from other state": it stores its derivation
function, and every `get()` re-runs it against the current state. -/
structure Computed where
  derive : Val → Int

/-- `store.<computed>.get()`: recalculate from the current state. -/
def Computed.get (c : Computed) (s : Val) : Int :=
  c.derive s

/-- The state shape of the test's count store (`store({ count: 10 })`,
with `n` the current count). -/
def countState (n : Int) : Val :=
  .obj [("count", .prim n)]

/-- `store.count.get()` of the test store. -/
def countGet (s : Val) : Int :=
  match valueAt ["count"] s with
  | some (.prim n) => n
  | _ => 0

/-- The test's `increment` action:
`store.count.set(store.count.get() + 1)`. -/
def increment (s : Val) : Val :=
  setAt ["count"] (.prim (countGet s + 1)) s

/-- The test's `decrement` action:
`store.count.set(store.count.get() - 1)`. -/
def decrement (s : Val) : Val :=
  setAt ["count"] (.prim (countGet s - 1)) s

/-- The test's computed property `doubled`:
`() => store.count.use() * 2`. -/
def doubled : Computed :=
  ⟨fun s => countGet s * 2⟩

/-! ## Store instances as a heap: local stores do not share state -/

/-- `createInnerStore` (source lines 74–124) is re-run by every
`LocalProvider` "otherwise the localStore setters would actually set
the global store" (source comment, lines 74–77): each call allocates a
fresh instance.  The heap of live instances is a list of states; an
instance is its index. -/
def createInnerInstance (w : List Val) (initialState : Val) : List Val × Nat :=
  (w ++ [initialState], w.length)

/-- A `set`/`assign` issued against instance `i` rewrites only that
instance's state. -/
def setInstance (w : List Val) (i : Nat) (arg : SetStateArg) : List Val :=
  match w[i]? with
  | some v => w.set i (produceNext arg v)
  | none => w

/-- Read the state of instance `i`. -/
def getInstance (w : List Val) (i : Nat) : Option Val :=
  w[i]?

/-! ## Helper lemmas for the extension and accessor layers -/

/-- Key membership only depends on the list of names. -/
theorem memKey_eq_of_names_eq {α β : Type} {k : String}
    {x : List (String × α)} {y : List (String × β)}
    (h : x.map Prod.fst = y.map Prod.fst) : memKey k x = memKey k y := by
  induction x generalizing y with
  | nil =>
    cases y with
    | nil => rfl
    | cons hd tl => simp at h
  | cons hd tl ih =>
    cases y with
    | nil => simp at h
    | cons hd' tl' =>
      obtain ⟨k₁, v₁⟩ := hd
      obtain ⟨k₂, v₂⟩ := hd'
      simp only [List.map_cons, List.cons.injEq] at h
      rw [memKey, memKey, h.1, ih h.2]

/-- Replaying the same extension list preserves name inclusion between
two store objects, provided each builder defines the same names
whatever store it is applied to (a JS builder returns a record literal,
whose keys are syntactically fixed). -/
theorem applyExtensions_mono :
    ∀ (exts : List Builder) (g l : StoreObj),
      (∀ b ∈ exts, ∀ s t : StoreObj, (b s).map Prod.fst = (b t).map Prod.fst) →
      (∀ n, memKey n g.members = true → memKey n l.members = true) →
      ∀ n, memKey n (applyExtensions exts g).members = true →
        memKey n (applyExtensions exts l).members = true := by
  intro exts
  induction exts with
  | nil => intro g l _ hsub n; exact hsub n
  | cons e rest ih =>
    intro g l hfix hsub n
    rw [applyExtensions, List.foldl_cons]
    intro h
    rw [applyExtensions, List.foldl_cons]
    refine ih (applyExtension g e) (applyExtension l e)
      (fun b hb => hfix b (List.mem_cons_of_mem _ hb)) ?_ n h
    intro m hm
    rw [applyExtension] at hm ⊢
    rw [memKey_mergeKVs] at hm ⊢
    rcases Bool.or_eq_true .. ▸ hm with hm' | hm'
    · rw [hsub m hm']
      rfl
    · rw [memKey_eq_of_names_eq (hfix e (List.mem_cons_self ..) g l)] at hm'
      rw [hm']
      simp

/-- Every name of the inner store built on the global initial state is
also a name of the inner store built on the local merged initial
state. -/
theorem createInnerStoreObj_names_sub (init : Val) (given : Option Val) :
    ∀ n, memKey n (createInnerStoreObj init).members = true →
      memKey n (createInnerStoreObj
        (mergedInitialState init (effectiveInitialValue given))).members = true := by
  intro n
  rw [createInnerStoreObj, createInnerStoreObj]
  rw [memKey_append, memKey_append]
  have hmap : ∀ (v : Val), memKey n ((kvsOf v).map (fun kv => (kv.1, (0 : Member))))
      = memKey n (kvsOf v) := fun v => memKey_map_fst n (kvsOf v) (fun _ => 0)
  rw [hmap, hmap]
  intro h
  rcases Bool.or_eq_true .. ▸ h with h' | h'
  · rw [h']; rfl
  · cases hobj : isObject init with
    | false =>
      exfalso
      cases init with
      | prim m => simp [kvsOf, memKey] at h'
      | arr vs => simp [kvsOf, memKey] at h'
      | obj kvs => simp [isObject] at hobj
    | true =>
      rw [mergedInitialState, if_pos hobj]
      rw [show kvsOf (.obj (mergeKVs (kvsOf init) (kvsOf (effectiveInitialValue given))))
            = mergeKVs (kvsOf init) (kvsOf (effectiveInitialValue given)) from rfl]
      rw [memKey_mergeKVs, h']
      simp

/-- Writing through key `k` rewrites exactly the value looked up at
`k`. -/
theorem lookupKV_updateKV (k : String) (f : Val → Val) :
    ∀ (kvs : List (String × Val)),
      lookupKV k (updateKV k f kvs) = (lookupKV k kvs).map f := by
  intro kvs
  induction kvs with
  | nil => simp [updateKV, lookupKV]
  | cons hd tl ih =>
    obtain ⟨k', v'⟩ := hd
    by_cases h : k' == k
    · simp [updateKV, lookupKV, h]
    · simp only [updateKV, lookupKV]
      rw [if_neg (by simpa using h), if_neg (by simpa using h)]
      rw [lookupKV]
      rw [if_neg (by simpa using h)]
      exact ih

/-- Updating through key `k` leaves every other key's value unchanged. -/
theorem lookupKV_updateKV_ne (k k' : String) (f : Val → Val)
    (hne : (k' == k) = false) :
    ∀ (kvs : List (String × Val)),
      lookupKV k' (updateKV k f kvs) = lookupKV k' kvs := by
  intro kvs
  have hne' : k' ≠ k := by simpa using hne
  induction kvs with
  | nil => simp [updateKV]
  | cons hd tl ih =>
    obtain ⟨k₀, v₀⟩ := hd
    by_cases h : k₀ = k
    · subst h
      have hk : (k₀ == k') = false := by
        simp only [beq_eq_false_iff_ne]
        exact fun hc => hne' hc.symm
      simp [updateKV, lookupKV, hk]
    · simp only [updateKV, lookupKV]
      rw [if_neg (by simpa using h)]
      simp only [lookupKV]
      by_cases hc : k₀ = k'
      · simp [hc]
      · simp [hc, ih]

/-- An update at path `p` acts on the value read at `p`. -/
theorem valueAt_updateAt (f : Val → Val) :
    ∀ (p : List String) (v : Val),
      valueAt p (updateAt p f v) = (valueAt p v).map f := by
  intro p
  induction p with
  | nil => intro v; rfl
  | cons k p' ih =>
    intro v
    cases v with
    | prim n => rfl
    | arr vs => rfl
    | obj kvs =>
      rw [updateAt, valueAt, valueAt, lookupKV_updateKV]
      cases lookupKV k kvs with
      | none => rfl
      | some w => simpa using ih w

/-! ## Claim theorems -/

/-- A sample builder, as produced by
`.actions((store) => ({ increment() { ... } }))`: it registers the
single member `increment`. -/
def incrementBuilder : Builder := fun _ => [("increment", 0)]

/-- C1: every name defined on the global store — generated accessors,
root methods, or members added by any builder registered through
`extend` — is also defined on the store a `LocalProvider` supplies to
`useLocalStore`, because the same extension functions are replayed
against the fresh local instance.  The hypothesis records that a JS
builder returns a record literal, whose key set does not depend on the
store it receives. -/
theorem local_store_exposes_global_surface
    (init : Val) (given : Option Val) (exts : List Builder)
    (hfix : ∀ b ∈ exts, ∀ s t : StoreObj,
      (b s).map Prod.fst = (b t).map Prod.fst) :
    ∀ n, memKey n (applyExtensions exts (createInnerStoreObj init)).members = true →
      memKey n (localProviderStore exts init given).members = true := by
  intro n h
  rw [localProviderStore]
  exact applyExtensions_mono exts _ _ hfix
    (createInnerStoreObj_names_sub init given) n h

/-- Witness for C1: the store `{count: 10}` extended with an
`increment` action, and a local provider given `{count: 5}`. -/
theorem local_store_exposes_global_surface_witness :
    memKey "increment"
      (localProviderStore [incrementBuilder] (countState 10)
        (some (.obj [("count", .prim 5)]))).members = true :=
  local_store_exposes_global_surface (countState 10)
    (some (.obj [("count", .prim 5)])) [incrementBuilder]
    (by
      intro b hb s t
      have hb' : b = incrementBuilder := by simpa using hb
      subst hb'
      rfl)
    "increment" (by decide)

/-- C2: the extension registry is an ordered sequence — `extend`
appends the builder and applies it to the api object as it stands after
all previously registered builders; the replay against any store folds
the registry in registration order; a `LocalProvider`'s store is the
fresh inner store with the whole registry replayed; and the appended
builder's members are defined on the result. -/
theorem extension_registry_ordered_replay
    (exts : List Builder) (b : Builder) (api st : StoreObj)
    (init : Val) (given : Option Val) :
    extendStore b (api, exts)
      = (applyExtension (applyExtensions exts api) b, exts ++ [b]) ∧
    applyExtensions (exts ++ [b]) st
      = applyExtension (applyExtensions exts st) b ∧
    localProviderStore exts init given
      = applyExtensions exts
          (createInnerStoreObj
            (mergedInitialState init (effectiveInitialValue given))) ∧
    (∀ n, memKey n (b (applyExtensions exts st)) = true →
      memKey n (applyExtensions (exts ++ [b]) st).members = true) := by
  have happ : ∀ (s : StoreObj), applyExtensions (exts ++ [b]) s
      = applyExtension (applyExtensions exts s) b := by
    intro s
    rw [applyExtensions, applyExtensions, List.foldl_append]
    rfl
  refine ⟨?_, happ st, rfl, ?_⟩
  · rw [extendStore, happ api]
  · intro n hn
    rw [happ st, applyExtension, memKey_mergeKVs, hn]
    simp

/-- Witness for C2: registering `incrementBuilder` on the count store
defines `increment` on the extended store. -/
theorem extension_registry_ordered_replay_witness :
    memKey "increment"
      (applyExtensions ([] ++ [incrementBuilder])
        (createInnerStoreObj (countState 10))).members = true :=
  (extension_registry_ordered_replay [] incrementBuilder
      (createInnerStoreObj (countState 10))
      (createInnerStoreObj (countState 10)) (countState 10) none).2.2.2
    "increment" (by decide)

/-- C3 counterexample: on the store `{count: 10}` the path `count` is
reachable, its accessor node is generated, and that node does not
expose `assign` (the claim asserts every reachable path's node provides
`get`, `set`, `use` and `assign`). -/
theorem reachable_path_without_assign :
    (valueAt ["count"] (countState 10)).isSome = true ∧
    (["count"], accessorFor (.prim 10)) ∈ storeAccessors (countState 10) ∧
    (accessorFor (.prim 10)).hasAssign = false := by
  decide

/-- C3 (amended): for every reachable path of a well-formed state tree
the store exposes exactly one accessor node — the root methods at the
empty path, the generated accessor elsewhere; it provides `get`, `set`
and `use`, and provides `assign` exactly on object paths (the root
always has it); a computed accessor is read-only, exposing only `get`
and `use`. -/
theorem accessor_surface_unique
    (v : Val) (p : List String) (w : Val)
    (hwf : wfVal v = true) (hval : valueAt p v = some w) :
    (storeAccessors v).filter (fun pn => decide (pn.1 = p)) =
      [(p, if p.isEmpty then rootAccessor else accessorFor w)] ∧
    (accessorFor w).hasGet = true ∧ (accessorFor w).hasSet = true ∧
    (accessorFor w).hasUse = true ∧ (accessorFor w).hasAssign = isObject w ∧
    rootAccessor.hasGet = true ∧ rootAccessor.hasSet = true ∧
    rootAccessor.hasUse = true ∧ rootAccessor.hasAssign = true ∧
    computedAccessor.hasGet = true ∧ computedAccessor.hasUse = true ∧
    computedAccessor.hasSet = false ∧ computedAccessor.hasAssign = false :=
  ⟨storeAccessors_unique hwf hval, rfl, rfl, rfl, rfl, rfl, rfl, rfl, rfl,
    rfl, rfl, rfl, rfl⟩

/-- Witness for C3 at the store `{count: 10}` and the path `count`. -/
theorem accessor_surface_unique_witness :
    wfVal (countState 10) = true ∧
    valueAt ["count"] (countState 10) = some (.prim 10) ∧
    (storeAccessors (countState 10)).filter
        (fun pn => decide (pn.1 = ["count"])) =
      [(["count"], accessorFor (.prim 10))] := by
  refine ⟨by decide, rfl, ?_⟩
  have h := (accessor_surface_unique (countState 10) ["count"] (.prim 10)
    (by decide) rfl).1
  simpa using h

/-- C4: a computed property's `get()` re-runs its derivation function
against the current state; on the test store, after `increment` moves
`count` from `n` to `n + 1`, `doubled` returns `(n + 1) * 2` — in the
test's instance, `count` 10 to 11 makes `doubled` 22 — and a
`decrement` brings it back. -/
theorem computed_recalculates (c : Computed) (t s : Val) (n : Int)
    (h : valueAt ["count"] s = some (.prim n)) :
    c.get t = c.derive t ∧
    doubled.get s = n * 2 ∧
    countGet (increment s) = n + 1 ∧
    doubled.get (increment s) = (n + 1) * 2 ∧
    doubled.get (decrement (increment s)) = n * 2 := by
  have hg : countGet s = n := by rw [countGet, h]
  have hinc : valueAt ["count"] (increment s) = some (.prim (n + 1)) := by
    rw [increment, hg, setAt, valueAt_updateAt, h]
    rfl
  have hginc : countGet (increment s) = n + 1 := by rw [countGet, hinc]
  have hdec : valueAt ["count"] (decrement (increment s)) = some (.prim n) := by
    rw [decrement, hginc, setAt, valueAt_updateAt, hinc]
    have harith : n + 1 - 1 = n := by ring
    simp [harith]
  refine ⟨rfl, ?_, hginc, ?_, ?_⟩
  · rw [show doubled.get s = countGet s * 2 from rfl, hg]
  · rw [show doubled.get (increment s) = countGet (increment s) * 2 from rfl,
      hginc]
  · rw [show doubled.get (decrement (increment s))
        = countGet (decrement (increment s)) * 2 from rfl, countGet, hdec]

/-- Witness for C4: the test's store `{count: 10}` — `doubled` is 20,
and 22 after `increment`. -/
theorem computed_recalculates_witness :
    valueAt ["count"] (countState 10) = some (.prim 10) ∧
    doubled.get (countState 10) = 20 ∧
    doubled.get (increment (countState 10)) = 22 := by
  have h := computed_recalculates doubled (countState 10) (countState 10) 10 rfl
  refine ⟨rfl, ?_, ?_⟩
  · have h1 := h.2.1
    norm_num at h1
    exact h1
  · have h1 := h.2.2.2.1
    norm_num at h1
    exact h1

/-- C5 counterexample: a store whose root state is the primitive `0` is
not an object, yet its root accessor offers `assign` (`globalMethods`
installs it unconditionally) — so `assign` is not offered on object
paths only. -/
theorem root_assign_on_primitive_store :
    isObject (.prim 0) = false ∧
    ([], rootAccessor) ∈ storeAccessors (.prim 0) ∧
    rootAccessor.hasAssign = true := by
  decide

/-- C5 (amended): inner accessor nodes offer `assign` exactly on object
paths; the root store object offers `assign` regardless of the state's
type; and on an object store, `assign(record)` merges the record into
the state — keys present in the record take the record's value, keys
absent from it are unchanged. -/
theorem assign_object_paths_only
    (v : Val) (p : List String) (node : AccessorNode)
    (hwf : wfVal v = true) (hmem : (p, node) ∈ generateInnerSelectors v)
    (name : String) (init given : Val) (api : ImmerStoreApi)
    (a : Option String) (hobj : isObject init = true) :
    node.hasAssign = isObject ((valueAt p v).getD (.prim 0)) ∧
    rootAccessor.hasAssign = true ∧
    (rootAssign name init api given a).state = draftAssign api.state given ∧
    (∀ (kvs : List (String × Val)) (k : String) (w : Val),
      lookupKV k (kvsOf given) = some w →
        lookupKV k (mergeKVs kvs (kvsOf given)) = some w) ∧
    (∀ (kvs : List (String × Val)) (k : String),
      lookupKV k (kvsOf given) = none →
        lookupKV k (mergeKVs kvs (kvsOf given)) = lookupKV k kvs) := by
  obtain ⟨w, hval, hnode⟩ := genSelectors_sound hwf hmem
  refine ⟨?_, rfl, ?_, ?_, ?_⟩
  · rw [hval, hnode]
    rfl
  · rw [rootAssign, if_pos hobj]
    rfl
  · intro kvs k w' h
    exact lookupKV_mergeKVs_right h
  · intro kvs k h
    exact lookupKV_mergeKVs_left h

/-- Witness for C5: the path `count` of `{count: 10}` has no `assign`
(its value is a primitive), and on the object store `{a: 1}`, root
`assign({a: 2})` merges on the draft. -/
theorem assign_object_paths_only_witness :
    (accessorFor (.prim 10)).hasAssign
      = isObject ((valueAt ["count"] (countState 10)).getD (.prim 0)) ∧
    (rootAssign "user" (.obj [("a", .prim 1)]) ⟨.obj [("a", .prim 1)], []⟩
        (.obj [("a", .prim 2)]) none).state
      = draftAssign (.obj [("a", .prim 1)]) (.obj [("a", .prim 2)]) := by
  have h := assign_object_paths_only (countState 10) ["count"]
    (accessorFor (.prim 10)) (by decide) (by decide)
    "user" (.obj [("a", .prim 1)]) (.obj [("a", .prim 2)])
    ⟨.obj [("a", .prim 1)], []⟩ none rfl
  exact ⟨h.1, h.2.2.1⟩

/-- C6: local store instances do not share state with the global one —
`createInnerStore` is re-run per provider, so each instance is a fresh
heap cell: a `set`/`assign` against the local instance leaves the
global instance's state untouched and conversely. -/
theorem local_global_state_isolation (w : List Val) (init localInit : Val)
    (arg arg' : SetStateArg) :
    (createInnerInstance w init).2
      ≠ (createInnerInstance (createInnerInstance w init).1
          (mergedInitialState init localInit)).2 ∧
    getInstance
        (setInstance (createInnerInstance (createInnerInstance w init).1
            (mergedInitialState init localInit)).1
          (createInnerInstance (createInnerInstance w init).1
            (mergedInitialState init localInit)).2 arg)
        (createInnerInstance w init).2
      = getInstance (createInnerInstance (createInnerInstance w init).1
          (mergedInitialState init localInit)).1
          (createInnerInstance w init).2 ∧
    getInstance
        (setInstance (createInnerInstance (createInnerInstance w init).1
            (mergedInitialState init localInit)).1
          (createInnerInstance w init).2 arg')
        (createInnerInstance (createInnerInstance w init).1
          (mergedInitialState init localInit)).2
      = getInstance (createInnerInstance (createInnerInstance w init).1
          (mergedInitialState init localInit)).1
          (createInnerInstance (createInnerInstance w init).1
            (mergedInitialState init localInit)).2 := by
  have hne : (createInnerInstance w init).2
      ≠ (createInnerInstance (createInnerInstance w init).1
          (mergedInitialState init localInit)).2 := by
    simp only [createInnerInstance, List.length_append, List.length_cons,
      List.length_nil]
    omega
  have hframe : ∀ (ws : List Val) (i j : Nat) (ar : SetStateArg), i ≠ j →
      getInstance (setInstance ws i ar) j = getInstance ws j := by
    intro ws i j ar hij
    rw [setInstance, getInstance, getInstance]
    cases ws[i]? with
    | none => rfl
    | some v => exact List.getElem?_set_ne hij
  exact ⟨hne, hframe _ _ _ arg (fun hc => hne hc.symm), hframe _ _ _ arg' hne⟩

/-- C7: every root `set` and `assign` routes through the immer
middleware's `setState` — exactly one `setState` call, with the
documented default action names — and the next state is produced from
the previous one by the middleware (value replacement, or a recipe on
the draft; for `assign` on an object store, an `Object.assign` merge),
never by mutating the previous state value in place (the embedding's
update is a pure function of the previous state). -/
theorem set_assign_route_through_immer
    (name : String) (api : ImmerStoreApi) (arg : SetStateArg)
    (given init : Val) (a b : Option String) :
    (rootSet name api arg a).state = produceNext arg api.state ∧
    (rootSet name api arg a).log
      = api.log ++ [a.getD ("@@" ++ name ++ "/setState")] ∧
    (rootAssign name init api given b).log
      = api.log ++ [b.getD ("@@" ++ name ++ "/assign")] ∧
    (isObject init = true →
      (rootAssign name init api given b).state = draftAssign api.state given) ∧
    (isObject init = false →
      (rootAssign name init api given b).state = given) := by
  refine ⟨rfl, rfl, rfl, ?_, ?_⟩
  · intro h
    rw [rootAssign, if_pos h]
    rfl
  · intro h
    rw [rootAssign, if_neg (by simp [h])]
    rfl

/-- Witness for C7: a `set` on the primitive store logs
`@@count/setState` and produces the new value; an `assign` on it passes
the value through. -/
theorem set_assign_route_through_immer_witness :
    (rootSet "count" ⟨.prim 0, []⟩ (.value (.prim 5)) none).state = .prim 5 ∧
    (rootSet "count" ⟨.prim 0, []⟩ (.value (.prim 5)) none).log
      = ["@@count/setState"] ∧
    (rootAssign "count" (.prim 0) ⟨.prim 0, []⟩ (.prim 7) none).state
      = .prim 7 := by
  have h := set_assign_route_through_immer "count" ⟨.prim 0, []⟩
    (.value (.prim 5)) (.prim 7) (.prim 0) none none
  exact ⟨h.1, h.2.1, h.2.2.2.2 rfl⟩

/-- C8: with an object global initial state, a `LocalProvider`'s local
store starts from the spread `{...initialState, ...initialValue}` —
keys present in `initialValue` take its values, keys absent keep the
global initial value — and an omitted `initialValue` defaults to the
empty object, leaving the local store equal to the global initial
state. -/
theorem local_provider_merges_initial_state
    (kvs lkvs : List (String × Val)) (k : String) (w : Val) :
    (lookupKV k lkvs = some w →
      lookupKV k (kvsOf (mergedInitialState (.obj kvs) (.obj lkvs))) = some w) ∧
    (lookupKV k lkvs = none →
      lookupKV k (kvsOf (mergedInitialState (.obj kvs) (.obj lkvs)))
        = lookupKV k kvs) ∧
    mergedInitialState (.obj kvs) (effectiveInitialValue none) = .obj kvs := by
  have hobj : isObject (.obj kvs) = true := rfl
  refine ⟨?_, ?_, ?_⟩
  · intro h
    rw [mergedInitialState, if_pos hobj]
    simp only [kvsOf]
    exact lookupKV_mergeKVs_right h
  · intro h
    rw [mergedInitialState, if_pos hobj]
    simp only [kvsOf]
    exact lookupKV_mergeKVs_left h
  · rw [mergedInitialState, if_pos hobj]
    rw [show kvsOf (effectiveInitialValue none) = [] from rfl]
    rw [show kvsOf (Val.obj kvs) = kvs from rfl, mergeKVs_nil]

/-- Witness for C8, the docs' example: global `{count: 0, name: 1}`
with `initialValue {count: 5}` — the local `count` is 5. -/
theorem local_provider_merges_initial_state_witness :
    lookupKV "count" [("count", Val.prim 5)] = some (.prim 5) ∧
    lookupKV "count"
        (kvsOf (mergedInitialState (.obj [("count", .prim 0), ("name", .prim 1)])
          (.obj [("count", .prim 5)]))) = some (.prim 5) := by
  have h := local_provider_merges_initial_state
    [("count", .prim 0), ("name", .prim 1)] [("count", .prim 5)]
    "count" (.prim 5)
  exact ⟨rfl, h.1 rfl⟩

/-- C9: `useLocalStore` returns the nearest enclosing `LocalProvider`'s
store, and throws `useLocalStore must be used within a LocalProvider`
when no provider encloses the caller. -/
theorem useLocalStore_nearest_or_throws (s : StoreObj) (rest : List StoreObj) :
    useLocalStore (s :: rest) = .ok s ∧
    useLocalStore []
      = .error "useLocalStore must be used within a LocalProvider" :=
  ⟨rfl, rfl⟩

/-- C10: `isObject` rejects arrays (and primitives) and accepts
objects; on a store whose root state is not an object, root `assign`
passes its argument through exactly like `set`, replacing the whole
state; and such a `LocalProvider` takes its `initialValue` — default
empty object — as the local initial state, without merging. -/
theorem isObject_excludes_arrays
    (l : List Val) (m : Int) (kvs : List (String × Val))
    (name : String) (api : ImmerStoreApi) (given init : Val)
    (a : Option String) (given' : Option Val)
    (hinit : isObject init = false) :
    isObject (.arr l) = false ∧
    isObject (.prim m) = false ∧
    isObject (.obj kvs) = true ∧
    (rootAssign name init api given a).state = given ∧
    (rootAssign name init api given a).state
      = (rootSet name api (.value given) a).state ∧
    mergedInitialState init (effectiveInitialValue given')
      = effectiveInitialValue given' ∧
    effectiveInitialValue none = .obj [] := by
  refine ⟨rfl, rfl, rfl, ?_, ?_, ?_, rfl⟩
  · rw [rootAssign, if_neg (by simp [hinit])]
    rfl
  · rw [rootAssign, if_neg (by simp [hinit])]
    rfl
  · rw [mergedInitialState, if_neg (by simp [hinit])]

/-- Witness for C10: an array-rooted store — `isObject` is false, root
`assign` replaces the state, and the local provider's default initial
state is the empty object, not the array. -/
theorem isObject_excludes_arrays_witness :
    isObject (Val.arr []) = false ∧
    (rootAssign "todos" (.arr []) ⟨.arr [], []⟩ (.prim 3) none).state
      = .prim 3 ∧
    mergedInitialState (.arr []) (effectiveInitialValue none) = .obj [] := by
  have h := isObject_excludes_arrays [] 0 [] "todos" ⟨.arr [], []⟩
    (.prim 3) (.arr []) none none rfl
  exact ⟨h.1, h.2.2.2.1, h.2.2.2.2.2.1⟩

end Davstack
